import Mathlib

/-!
# MultiThreadBinary (src/main.cpp): a shallow embedding

`MultiThreadBinary<N>` evaluates a binary operator elementwise over two
`std::vector<T>` with `N` threads.  The embedding follows `calulate` line by
line:

* `std::vector` is a `List`, `std::size_t` a `Nat`;
* `operator[]` is checked: an index outside the vector is the fault
  `Fault.outOfRange` (undefined behaviour in C++);
* the callable `binary` may trap, so it returns an `Option`; a trap is the
  fault `Fault.arithmetic` and ends the whole call;
* `assert` is compiled in: a false condition is the fault `Fault.assertion`;
* the threads write to `ret` one after the other: `calulate.spawn` creates a
  thread and runs its body at once, so `calulate` runs the bodies in the order
  in which the threads are created; `runThreads` runs them in any given order;
* a fault ends the process: after it no thread is created and no `join`
  returns.

Besides the returned vector the model records what the call did (the
partitions built, the threads created and joined, the indices at which `binary`
was invoked), so that statements about "before any worker is spawned" can be
made.
-/

namespace MultiThreadBinary

/-- The ways in which a call can end without returning a vector. -/
inductive Fault where
  | assertion
  | outOfRange
  | arithmetic
  deriving DecidableEq

/-- The memory the worker threads share: the result vector `ret`, the log of the
indices at which `binary` has been invoked (ghost state), and the fault that
stopped the process, if any. -/
structure Machine (T : Type) where
  ret : List T
  calls : List Nat
  fault : Option Fault
  deriving DecidableEq

/-- What a call of `calulate` did: `targets` are the partitions that were built,
`threads` the targets with which a `std::thread` was created (in creation
order), `joined` the number of `join` calls that returned, `calls` the indices
at which `binary` was invoked, `result` the returned vector or the fault. -/
structure Outcome (T : Type) where
  targets : List (List Nat)
  threads : List (List Nat)
  joined : Nat
  calls : List Nat
  result : Except Fault (List T)

/-- `std::vector<std::size_t> v(n); std::iota(v.begin(), v.end(), 0)`. -/
def iota (n : Nat) : List Nat := List.range n

/-- The lambda `[&ret, &t0, &t1, &binary](const auto i) { ret[i] = binary(t0[i], t1[i]); }`
of `calulate` (named `add` there).  Once the process has faulted nothing happens
any more. -/
def calulate.add {T : Type} (t0 t1 : List T) (binary : T → T → Option T)
    (m : Machine T) (i : Nat) : Machine T :=
  match m.fault with
  | some _ => m
  | none =>
    match t0[i]?, t1[i]? with
    | some x0, some x1 =>
      match binary x0 x1 with
      | none => { m with calls := m.calls ++ [i], fault := some Fault.arithmetic }
      | some v =>
        if i < m.ret.length then
          { m with ret := m.ret.set i v, calls := m.calls ++ [i] }
        else
          { m with calls := m.calls ++ [i], fault := some Fault.outOfRange }
    | _, _ => { m with fault := some Fault.outOfRange }

/-- The lambda `exec`: `std::for_each(target.begin(), target.end(), add)`, the
body of one worker thread. -/
def calulate.exec {T : Type} (t0 t1 : List T) (binary : T → T → Option T)
    (m : Machine T) (target : List Nat) : Machine T :=
  target.foldl (calulate.add t0 t1 binary) m

/-- The bodies of the given threads, run one after the other in the order of the
list. -/
def runThreads {T : Type} (t0 t1 : List T) (binary : T → T → Option T)
    (threads : List (List Nat)) (m : Machine T) : Machine T :=
  threads.foldl (calulate.exec t0 t1 binary) m

/-- The "packing calculation group" step: for every thread id the indices `i`
of `index` with `i % N == id`, in the order of `index`. -/
def packTargets (N : Nat) (threadIds index : List Nat) : List (List Nat) :=
  threadIds.map (fun id => index.filter (fun i => i % N == id))

/-- The returned vector, or the fault that stopped the call. -/
def Machine.result {T : Type} (m : Machine T) : Except Fault (List T) :=
  match m.fault with
  | some f => Except.error f
  | none => Except.ok m.ret

/-- The process during the "execute calculation" and "wait calculation" steps:
the memory shared with the workers, the `std::list<std::thread> threads` (every
thread with the target it was created with, in creation order) and the number
of `join` calls that have returned. -/
structure Process (T : Type) where
  mem : Machine T
  threads : List (List Nat)
  joined : Nat

/-- One step of the "execute calculation" `std::transform`: the lambda
`[&exec, &threads](const auto& target) { return std::thread(exec, target); }`
and the `back_inserter`.  The new thread is appended to `threads` and runs
`exec` on its target.  A process that has faulted creates no thread. -/
def calulate.spawn {T : Type} (t0 t1 : List T) (binary : T → T → Option T)
    (p : Process T) (target : List Nat) : Process T :=
  match p.mem.fault with
  | some _ => p
  | none =>
    { p with
      threads := p.threads ++ [target]
      mem := calulate.exec t0 t1 binary p.mem target }

/-- One step of the "wait calculation" `std::for_each`: the lambda
`[](auto& thread) { thread.join(); }`.  In a process that has faulted no `join`
returns. -/
def calulate.join {T : Type} (p : Process T) (_thread : List Nat) : Process T :=
  match p.mem.fault with
  | some _ => p
  | none => { p with joined := p.joined + 1 }

/-- `MultiThreadBinary<N>::calulate(t0, t1, binary)`; `zero` is the
value-initialised `T()` with which `std::vector<T> ret(t0.size())` is filled. -/
def calulate {T : Type} (zero : T) (N : Nat) (t0 t1 : List T)
    (binary : T → T → Option T) : Outcome T :=
  if t0.length ≠ t1.length then
    { targets := [], threads := [], joined := 0, calls := [],
      result := Except.error Fault.assertion }
  else
    let threadIds := iota N
    let index := iota t0.length
    let targets := packTargets N threadIds index
    let ret := List.replicate t0.length zero
    let started := targets.foldl (calulate.spawn t0 t1 binary)
      { mem := { ret := ret, calls := [], fault := none }, threads := [], joined := 0 }
    let waited := started.threads.foldl calulate.join started
    { targets := targets
      threads := waited.threads
      joined := waited.joined
      calls := waited.mem.calls
      result := waited.mem.result }

/-- The arithmetic of an element type `T`: the value `T()` and the four
operators, each of which may trap (`none`). -/
structure Arith (T : Type) where
  zero : T
  plus : T → T → Option T
  minus : T → T → Option T
  times : T → T → Option T
  over : T → T → Option T

/-- `MultiThreadBinary<N>::add`. -/
def add {T : Type} (A : Arith T) (N : Nat) (t0 t1 : List T) : Outcome T :=
  calulate A.zero N t0 t1 (fun x0 x1 => A.plus x0 x1)

/-- `MultiThreadBinary<N>::sub`. -/
def sub {T : Type} (A : Arith T) (N : Nat) (t0 t1 : List T) : Outcome T :=
  calulate A.zero N t0 t1 (fun x0 x1 => A.minus x0 x1)

/-- `MultiThreadBinary<N>::mult`. -/
def mult {T : Type} (A : Arith T) (N : Nat) (t0 t1 : List T) : Outcome T :=
  calulate A.zero N t0 t1 (fun x0 x1 => A.times x0 x1)

/-- `MultiThreadBinary<N>::div`. -/
def div {T : Type} (A : Arith T) (N : Nat) (t0 t1 : List T) : Outcome T :=
  calulate A.zero N t0 t1 (fun x0 x1 => A.over x0 x1)

/-- An operator that never traps, as a callable. -/
def total {T : Type} (op : T → T → T) : T → T → Option T :=
  fun x0 x1 => some (op x0 x1)

/-- The arithmetic of a type whose operators are total functions (the reals
that `float` approximates, the rationals, the unbounded integers). -/
def Arith.exact (T : Type) [Zero T] [Add T] [Sub T] [Mul T] [Div T] : Arith T where
  zero := 0
  plus := total (fun x0 x1 => x0 + x1)
  minus := total (fun x0 x1 => x0 - x1)
  times := total (fun x0 x1 => x0 * x1)
  over := total (fun x0 x1 => x0 / x1)

/-- Whether `x` is a value of the signed `w`-bit integer type. -/
def inRange (w : Nat) (x : Int) : Bool :=
  decide (-(2 : Int) ^ (w - 1) ≤ x) && decide (x < (2 : Int) ^ (w - 1))

/-- A result of signed `w`-bit arithmetic: the mathematical value when the type
can represent it, a trap otherwise (signed overflow is undefined). -/
def checked (w : Nat) (x : Int) : Option Int :=
  if inRange w x then some x else none

/-- The arithmetic of the signed `w`-bit integer type (`int` is `w = 32`):
`/` truncates towards zero, traps on a zero divisor and on a quotient that
cannot be represented (`INT_MIN / -1`). -/
def Arith.signed (w : Nat) : Arith Int where
  zero := 0
  plus := fun x0 x1 => checked w (x0 + x1)
  minus := fun x0 x1 => checked w (x0 - x1)
  times := fun x0 x1 => checked w (x0 * x1)
  over := fun x0 x1 => if x1 = 0 then none else checked w (Int.tdiv x0 x1)

end MultiThreadBinary


namespace MultiThreadBinary

/-! ## The worker body -/

section Workers

variable {T : Type} (t0 t1 : List T) (binary : T → T → Option T)

/-- After a fault a write changes nothing. -/
theorem add_of_fault (m : Machine T) (i : Nat) (f : Fault) (hf : m.fault = some f) :
    calulate.add t0 t1 binary m i = m := by
  simp [calulate.add, hf]

/-- After a fault a worker body changes nothing. -/
theorem exec_of_fault (l : List Nat) (m : Machine T) (f : Fault) (hf : m.fault = some f) :
    calulate.exec t0 t1 binary m l = m := by
  induction l with
  | nil => rfl
  | cons i l ih =>
    simp only [calulate.exec, List.foldl_cons] at ih ⊢
    rw [add_of_fault t0 t1 binary m i f hf]
    exact ih

/-- A write at an index inside all three vectors, where `binary` returns. -/
theorem add_of_some (m : Machine T) (i : Nat) (v : T) (hf : m.fault = none)
    (h0 : i < t0.length) (h1 : i < t1.length) (hr : i < m.ret.length)
    (hv : binary t0[i] t1[i] = some v) :
    calulate.add t0 t1 binary m i
      = { ret := m.ret.set i v, calls := m.calls ++ [i], fault := none } := by
  simp [calulate.add, hf, List.getElem?_eq_getElem h0, List.getElem?_eq_getElem h1, hv, hr]

/-- A write at an index inside the operands, where `binary` traps. -/
theorem add_of_none (m : Machine T) (i : Nat) (hf : m.fault = none)
    (h0 : i < t0.length) (h1 : i < t1.length) (hv : binary t0[i] t1[i] = none) :
    calulate.add t0 t1 binary m i
      = { ret := m.ret, calls := m.calls ++ [i], fault := some Fault.arithmetic } := by
  simp [calulate.add, hf, List.getElem?_eq_getElem h0, List.getElem?_eq_getElem h1, hv]

/-- Running a worker on the concatenation of two targets is running it on the
first and then on the second. -/
theorem exec_append (l l' : List Nat) (m : Machine T) :
    calulate.exec t0 t1 binary m (l ++ l')
      = calulate.exec t0 t1 binary (calulate.exec t0 t1 binary m l) l' := by
  simp [calulate.exec, List.foldl_append]

/-- Running the threads one after the other is one pass over the concatenated
targets. -/
theorem runThreads_eq_exec (ts : List (List Nat)) (m : Machine T) :
    runThreads t0 t1 binary ts m = calulate.exec t0 t1 binary m ts.flatten := by
  induction ts generalizing m with
  | nil => rfl
  | cons l ts ih =>
    rw [List.flatten_cons, exec_append, ← ih]
    rfl

/-- A pass over in-range indices at which `binary` agrees with the total
operator `op`: no fault, every index logged, and slot `i` holds
`op t0[i] t1[i]` if `i` was visited and its old value otherwise. -/
theorem exec_of_agree (op : T → T → T) (n : Nat) (h0 : t0.length = n) (h1 : t1.length = n)
    (l : List Nat) (hl : ∀ i ∈ l, i < n)
    (hop : ∀ i ∈ l, ∀ x0 x1, t0[i]? = some x0 → t1[i]? = some x1 →
      binary x0 x1 = some (op x0 x1))
    (m : Machine T) (hf : m.fault = none) (hr : m.ret.length = n) :
    (calulate.exec t0 t1 binary m l).fault = none ∧
    (calulate.exec t0 t1 binary m l).calls = m.calls ++ l ∧
    (calulate.exec t0 t1 binary m l).ret.length = n ∧
    ∀ i, (calulate.exec t0 t1 binary m l).ret[i]?
      = if i ∈ l then (List.zipWith op t0 t1)[i]? else m.ret[i]? := by
  induction l generalizing m with
  | nil => simp [calulate.exec, hf, hr]
  | cons j l ih =>
    have hj : j < n := hl j (List.mem_cons_self _ _)
    have hj0 : j < t0.length := h0 ▸ hj
    have hj1 : j < t1.length := h1 ▸ hj
    have hv : binary t0[j] t1[j] = some (op t0[j] t1[j]) :=
      hop j (List.mem_cons_self _ _) _ _ (List.getElem?_eq_getElem hj0)
        (List.getElem?_eq_getElem hj1)
    have hstep := add_of_some t0 t1 binary m j _ hf hj0 hj1 (hr ▸ hj) hv
    have hexec : calulate.exec t0 t1 binary m (j :: l)
        = calulate.exec t0 t1 binary (calulate.add t0 t1 binary m j) l := rfl
    rw [hexec, hstep]
    obtain ⟨ihf, ihc, ihlen, ihget⟩ :=
      ih (fun i hi => hl i (List.mem_cons_of_mem _ hi))
        (fun i hi => hop i (List.mem_cons_of_mem _ hi))
        { ret := m.ret.set j (op t0[j] t1[j]), calls := m.calls ++ [j], fault := none }
        rfl (by simp [hr])
    refine ⟨ihf, by simp [ihc], ihlen, fun i => ?_⟩
    rw [ihget i]
    by_cases hil : i ∈ l
    · simp [hil]
    · simp only [hil, if_false, List.mem_cons, or_false]
      by_cases hij : i = j
      · subst hij
        simp [List.getElem?_set, hr, hj, List.getElem?_zipWith,
          List.getElem?_eq_getElem hj0, List.getElem?_eq_getElem hj1]
      · have hji : j ≠ i := fun h => hij h.symm
        simp [hij, List.getElem?_set_ne hji]

/-- A pass over in-range indices one of which makes `binary` trap ends in the
arithmetic fault. -/
theorem exec_of_trap (n : Nat) (h0 : t0.length = n) (h1 : t1.length = n)
    (l : List Nat) (hl : ∀ i ∈ l, i < n)
    (htrap : ∃ i ∈ l, ∃ x0 x1, t0[i]? = some x0 ∧ t1[i]? = some x1 ∧ binary x0 x1 = none)
    (m : Machine T) (hf : m.fault = none) (hr : m.ret.length = n) :
    (calulate.exec t0 t1 binary m l).fault = some Fault.arithmetic := by
  induction l generalizing m with
  | nil => simp at htrap
  | cons j l ih =>
    have hj : j < n := hl j (List.mem_cons_self _ _)
    have hj0 : j < t0.length := h0 ▸ hj
    have hj1 : j < t1.length := h1 ▸ hj
    have hexec : calulate.exec t0 t1 binary m (j :: l)
        = calulate.exec t0 t1 binary (calulate.add t0 t1 binary m j) l := rfl
    rw [hexec]
    cases hv : binary t0[j] t1[j] with
    | none =>
      rw [add_of_none t0 t1 binary m j hf hj0 hj1 hv]
      rw [exec_of_fault t0 t1 binary l _ Fault.arithmetic rfl]
    | some v =>
      rw [add_of_some t0 t1 binary m j v hf hj0 hj1 (hr ▸ hj) hv]
      apply ih (fun i hi => hl i (List.mem_cons_of_mem _ hi))
      · obtain ⟨i, hi, x0, x1, e0, e1, e⟩ := htrap
        rcases List.mem_cons.mp hi with rfl | hi'
        · rw [List.getElem?_eq_getElem hj0] at e0
          rw [List.getElem?_eq_getElem hj1] at e1
          cases e0; cases e1
          rw [hv] at e
          cases e
        · exact ⟨i, hi', x0, x1, e0, e1, e⟩
      · rfl
      · simp [hr]

end Workers

end MultiThreadBinary

namespace MultiThreadBinary

/-! ## The partitions -/

section Partitions

/-- The partition with position `k` in the list: the indices below `n` that are
`k` modulo `N` when `k < N`, none otherwise. -/
theorem packTargets_getElem? (N n k : Nat) :
    (packTargets N (iota N) (iota n))[k]?
      = if k < N then some ((iota n).filter (fun i => i % N == k)) else none := by
  unfold packTargets iota
  rw [List.getElem?_map]
  by_cases hk : k < N
  · simp [hk, List.getElem?_range hk]
  · have hnone : (List.range N)[k]? = none := by
      apply List.getElem?_eq_none
      simpa using hk
    simp [hk, hnone]

/-- There are exactly `N` partitions. -/
theorem packTargets_length (N n : Nat) : (packTargets N (iota N) (iota n)).length = N := by
  simp [packTargets, iota]

/-- Membership in a partition. -/
theorem mem_packTargets (N n : Nat) (t : List Nat) :
    t ∈ packTargets N (iota N) (iota n)
      ↔ ∃ id, id < N ∧ t = (iota n).filter (fun i => i % N == id) := by
  simp only [packTargets, iota, List.mem_map, List.mem_range]
  constructor
  · rintro ⟨id, hid, rfl⟩
    exact ⟨id, hid, rfl⟩
  · rintro ⟨id, hid, rfl⟩
    exact ⟨id, hid, rfl⟩

/-- Every index of every partition is below `n`. -/
theorem packTargets_lt (N n : Nat) (t : List Nat) (ht : t ∈ packTargets N (iota N) (iota n))
    (i : Nat) (hi : i ∈ t) : i < n := by
  obtain ⟨id, _, rfl⟩ := (mem_packTargets N n t).mp ht
  simp only [iota, List.mem_filter, List.mem_range] at hi
  exact hi.1

/-- With at least one thread, the concatenated partitions hold exactly the
indices below `n`. -/
theorem mem_flatten_packTargets (N n : Nat) (hN : 1 ≤ N) (i : Nat) :
    i ∈ (packTargets N (iota N) (iota n)).flatten ↔ i < n := by
  rw [List.mem_flatten]
  constructor
  · rintro ⟨t, ht, hi⟩
    exact packTargets_lt N n t ht i hi
  · intro hi
    refine ⟨(iota n).filter (fun j => j % N == i % N), ?_, ?_⟩
    · exact (mem_packTargets N n _).mpr ⟨i % N, Nat.mod_lt _ hN, rfl⟩
    · simp [iota, hi]

/-- An index below `n` occurs once in the partition of its residue and in no
other one. -/
theorem count_filter_iota (N n k i : Nat) :
    ((iota n).filter (fun j => j % N == k)).count i
      = if i < n ∧ i % N = k then 1 else 0 := by
  by_cases h : i < n ∧ i % N = k
  · rw [if_pos h]
    have hp : (fun j => j % N == k) i = true := by simp [h.2]
    rw [@List.count_filter _ _ _ (fun j => j % N == k) i (iota n) hp]
    exact List.count_eq_one_of_mem (List.nodup_range n) (List.mem_range.mpr h.1)
  · rw [if_neg h]
    apply List.count_eq_zero.mpr
    simp only [iota, List.mem_filter, List.mem_range, beq_iff_eq]
    exact h

end Partitions

/-! ## Creating and joining the threads -/

section Threads

variable {T : Type} (t0 t1 : List T) (binary : T → T → Option T)

/-- A worker body that ends without a fault started without one. -/
theorem fault_none_of_exec (l : List Nat) (m : Machine T)
    (h : (calulate.exec t0 t1 binary m l).fault = none) : m.fault = none := by
  cases hf : m.fault with
  | none => rfl
  | some f =>
    rw [exec_of_fault t0 t1 binary l m f hf, hf] at h
    cases h

/-- A worker body that ends without a fault has invoked `binary` at every index
of its target, in order. -/
theorem exec_calls_of_ok (l : List Nat) (m : Machine T)
    (h : (calulate.exec t0 t1 binary m l).fault = none) :
    (calulate.exec t0 t1 binary m l).calls = m.calls ++ l := by
  induction l generalizing m with
  | nil => simp [calulate.exec]
  | cons i l ih =>
    have hexec : calulate.exec t0 t1 binary m (i :: l)
        = calulate.exec t0 t1 binary (calulate.add t0 t1 binary m i) l := rfl
    rw [hexec] at h ⊢
    have hstep := fault_none_of_exec t0 t1 binary l _ h
    rw [ih _ h]
    have hm : m.fault = none := by
      cases hf : m.fault with
      | none => rfl
      | some f =>
        rw [add_of_fault t0 t1 binary m i f hf, hf] at hstep
        cases hstep
    have hcalls : (calulate.add t0 t1 binary m i).calls = m.calls ++ [i] := by
      unfold calulate.add at hstep ⊢
      simp only [hm] at hstep ⊢
      split at hstep
      · split at hstep
        · cases hstep
        · split at hstep
          · simp [*]
          · cases hstep
      · cases hstep
    rw [hcalls, List.append_assoc]
    rfl

/-- The memory after the creation of one thread. -/
theorem spawn_mem (p : Process T) (t : List Nat) :
    (calulate.spawn t0 t1 binary p t).mem = calulate.exec t0 t1 binary p.mem t := by
  unfold calulate.spawn
  cases hf : p.mem.fault with
  | some f => exact (exec_of_fault t0 t1 binary t p.mem f hf).symm
  | none => rfl

/-- A process that has faulted creates no thread. -/
theorem spawnAll_of_fault (ts : List (List Nat)) (p : Process T) (f : Fault)
    (hf : p.mem.fault = some f) : ts.foldl (calulate.spawn t0 t1 binary) p = p := by
  induction ts with
  | nil => rfl
  | cons t ts ih =>
    have hstep : calulate.spawn t0 t1 binary p t = p := by simp [calulate.spawn, hf]
    rw [List.foldl_cons, hstep]
    exact ih

/-- The memory after the creation of the threads is the memory after one pass
over their concatenated targets. -/
theorem spawnAll_mem (ts : List (List Nat)) (p : Process T) :
    (ts.foldl (calulate.spawn t0 t1 binary) p).mem
      = calulate.exec t0 t1 binary p.mem ts.flatten := by
  induction ts generalizing p with
  | nil => rfl
  | cons t ts ih =>
    rw [List.foldl_cons, ih, spawn_mem, List.flatten_cons, exec_append]

/-- Creating threads joins none. -/
theorem spawnAll_joined (ts : List (List Nat)) (p : Process T) :
    (ts.foldl (calulate.spawn t0 t1 binary) p).joined = p.joined := by
  induction ts generalizing p with
  | nil => rfl
  | cons t ts ih =>
    rw [List.foldl_cons, ih]
    unfold calulate.spawn
    split <;> rfl

/-- The threads created are the threads for an initial part of the targets, in
the order of the targets. -/
theorem spawnAll_threads_take (ts : List (List Nat)) (p : Process T) :
    ∃ c, c ≤ ts.length ∧
      (ts.foldl (calulate.spawn t0 t1 binary) p).threads = p.threads ++ ts.take c := by
  induction ts generalizing p with
  | nil => exact ⟨0, Nat.le_refl 0, by simp⟩
  | cons t ts ih =>
    cases hf : p.mem.fault with
    | some f =>
      rw [spawnAll_of_fault t0 t1 binary (t :: ts) p f hf]
      exact ⟨0, Nat.zero_le _, by simp⟩
    | none =>
      obtain ⟨c, hc, hthreads⟩ := ih (calulate.spawn t0 t1 binary p t)
      refine ⟨c + 1, by simpa using hc, ?_⟩
      rw [List.foldl_cons, hthreads]
      have hstep : (calulate.spawn t0 t1 binary p t).threads = p.threads ++ [t] := by
        simp [calulate.spawn, hf]
      rw [hstep]
      simp

/-- When the pass over all targets ends without a fault, one thread has been
created for every target, in the order of the targets. -/
theorem spawnAll_threads_of_ok (ts : List (List Nat)) (p : Process T)
    (h : (calulate.exec t0 t1 binary p.mem ts.flatten).fault = none) :
    (ts.foldl (calulate.spawn t0 t1 binary) p).threads = p.threads ++ ts := by
  induction ts generalizing p with
  | nil => simp
  | cons t ts ih =>
    rw [List.flatten_cons, exec_append] at h
    have hmid := fault_none_of_exec t0 t1 binary ts.flatten _ h
    have hf := fault_none_of_exec t0 t1 binary t _ hmid
    have hstep : (calulate.spawn t0 t1 binary p t).threads = p.threads ++ [t] := by
      simp [calulate.spawn, hf]
    rw [List.foldl_cons, ih _ (by rw [spawn_mem]; exact h), hstep]
    simp

/-- In a live process every `join` returns. -/
theorem joinAll_of_ok (l : List (List Nat)) (p : Process T) (hf : p.mem.fault = none) :
    l.foldl calulate.join p = { p with joined := p.joined + l.length } := by
  induction l generalizing p with
  | nil => rfl
  | cons t l ih =>
    have hstep : calulate.join p t = { p with joined := p.joined + 1 } := by
      simp [calulate.join, hf]
    rw [List.foldl_cons, hstep, ih { p with joined := p.joined + 1 } hf]
    simp [Nat.add_assoc, Nat.add_comm 1]

/-- In a process that has faulted no `join` returns. -/
theorem joinAll_of_fault (l : List (List Nat)) (p : Process T) (f : Fault)
    (hf : p.mem.fault = some f) : l.foldl calulate.join p = p := by
  induction l with
  | nil => rfl
  | cons t l ih =>
    have hstep : calulate.join p t = p := by simp [calulate.join, hf]
    rw [List.foldl_cons, hstep]
    exact ih

end Threads

/-! ## The call -/

section Call

variable {T : Type}

/-- The call after a passed length check: the memory is the one after one pass
over the concatenated partitions, the threads are the ones created on the way,
and all of them are joined unless the process has faulted. -/
theorem calulate_of_length_eq (zero : T) (N : Nat) (t0 t1 : List T)
    (binary : T → T → Option T) (h : t0.length = t1.length) :
    calulate zero N t0 t1 binary
      = { targets := packTargets N (iota N) (iota t0.length)
          threads := ((packTargets N (iota N) (iota t0.length)).foldl
            (calulate.spawn t0 t1 binary)
            { mem := { ret := List.replicate t0.length zero, calls := [], fault := none },
              threads := [], joined := 0 }).threads
          joined := match (calulate.exec t0 t1 binary
              { ret := List.replicate t0.length zero, calls := [], fault := none }
              (packTargets N (iota N) (iota t0.length)).flatten).fault with
            | some _ => 0
            | none => ((packTargets N (iota N) (iota t0.length)).foldl
                (calulate.spawn t0 t1 binary)
                { mem := { ret := List.replicate t0.length zero, calls := [], fault := none },
                  threads := [], joined := 0 }).threads.length
          calls := (calulate.exec t0 t1 binary
              { ret := List.replicate t0.length zero, calls := [], fault := none }
              (packTargets N (iota N) (iota t0.length)).flatten).calls
          result := (calulate.exec t0 t1 binary
              { ret := List.replicate t0.length zero, calls := [], fault := none }
              (packTargets N (iota N) (iota t0.length)).flatten).result } := by
  unfold calulate
  rw [if_neg (by simpa using h)]
  have hmem := spawnAll_mem t0 t1 binary (packTargets N (iota N) (iota t0.length))
    { mem := { ret := List.replicate t0.length zero, calls := [], fault := none },
      threads := [], joined := 0 }
  have hjoined := spawnAll_joined t0 t1 binary (packTargets N (iota N) (iota t0.length))
    { mem := { ret := List.replicate t0.length zero, calls := [], fault := none },
      threads := [], joined := 0 }
  simp only at hmem hjoined ⊢
  cases hf : (calulate.exec t0 t1 binary
      { ret := List.replicate t0.length zero, calls := [], fault := none }
      (packTargets N (iota N) (iota t0.length)).flatten).fault with
  | some f =>
    rw [joinAll_of_fault _ _ f (by rw [hmem]; exact hf), hmem, hjoined]
  | none =>
    rw [joinAll_of_ok _ _ (by rw [hmem]; exact hf)]
    simp only [hmem, hjoined, Nat.zero_add]

/-- A vector that has the length of the operands and agrees with the
elementwise result on a set of slots covering all of them is the elementwise
result. -/
theorem eq_zipWith_of_getElem? (op : T → T → T) (t0 t1 r r0 : List T) (p : Nat → Prop)
    [DecidablePred p] (h : t0.length = t1.length) (hlen : r.length = t0.length)
    (hp : ∀ i, i < t0.length → p i)
    (hget : ∀ i, r[i]? = if p i then (List.zipWith op t0 t1)[i]? else r0[i]?) :
    r = List.zipWith op t0 t1 := by
  apply List.ext_getElem?
  intro i
  by_cases hi : i < t0.length
  · rw [hget i, if_pos (hp i hi)]
  · have h1 : r[i]? = none := List.getElem?_eq_none (by omega)
    have h2 : (List.zipWith op t0 t1)[i]? = none :=
      List.getElem?_eq_none (by simp [List.length_zipWith]; omega)
    rw [h1, h2]

/-- With at least one thread and operands of equal length, a callable that
agrees with the total operator `op` on all pairs of operands makes the call
return the elementwise result. -/
theorem calulate_result_of_agree (zero : T) (N : Nat) (hN : 1 ≤ N) (t0 t1 : List T)
    (binary : T → T → Option T) (op : T → T → T) (h : t0.length = t1.length)
    (hop : ∀ (i : Nat) x0 x1, t0[i]? = some x0 → t1[i]? = some x1 →
      binary x0 x1 = some (op x0 x1)) :
    (calulate zero N t0 t1 binary).result = Except.ok (List.zipWith op t0 t1) := by
  rw [calulate_of_length_eq zero N t0 t1 binary h]
  obtain ⟨hf, _, hlen, hget⟩ := exec_of_agree t0 t1 binary op t0.length rfl h.symm
    (packTargets N (iota N) (iota t0.length)).flatten
    (fun i hi => (mem_flatten_packTargets N t0.length hN i).mp hi)
    (fun i _ => hop i)
    { ret := List.replicate t0.length zero, calls := [], fault := none } rfl (by simp)
  simp only [Machine.result, hf]
  congr 1
  exact eq_zipWith_of_getElem? op t0 t1 _ (List.replicate t0.length zero) _ h hlen
    (fun i hi => (mem_flatten_packTargets N t0.length hN i).mpr hi) hget

end Call

end MultiThreadBinary

namespace MultiThreadBinary

/-! ## The contract of `calulate` -/

section Contract

variable {T : Type}

/-- The elementwise result, read slot by slot. -/
theorem zipWith_getElem?_of_some (op : T → T → T) (a b : List T) (i : Nat) (x0 x1 : T)
    (h0 : a[i]? = some x0) (h1 : b[i]? = some x1) :
    (List.zipWith op a b)[i]? = some (op x0 x1) := by
  simp [List.getElem?_zipWith, h0, h1]

/-- C1: for every worker count `N ≥ 1`, every binary operator `op` and all
operands `a`, `b` of equal length, `calulate` returns a vector that has the
length of the operands and holds `op a[i] b[i]` in every slot `i`; it is the
in-order elementwise zip of `a` and `b` under `op`. -/
theorem calulate_elementwise (zero : T) (N : Nat) (hN : 1 ≤ N) (op : T → T → T)
    (a b : List T) (hlen : a.length = b.length) :
    ∃ r, (calulate zero N a b (total op)).result = Except.ok r ∧
      r.length = a.length ∧
      (∀ (i : Nat) (x0 x1 : T), a[i]? = some x0 → b[i]? = some x1 →
        r[i]? = some (op x0 x1)) ∧
      r = List.zipWith op a b := by
  refine ⟨List.zipWith op a b, ?_, ?_, ?_, rfl⟩
  · exact calulate_result_of_agree zero N hN a b (total op) op hlen
      (fun _ _ _ _ _ => rfl)
  · simp [List.length_zipWith, hlen]
  · exact fun i x0 x1 h0 h1 => zipWith_getElem?_of_some op a b i x0 x1 h0 h1

/-- C1 at `N = 3`, subtraction on `[5, 7, 9, 11]` and `[1, 2, 3, 4]`. -/
theorem calulate_elementwise_witness :
    1 ≤ 3 ∧ [(5 : Int), 7, 9, 11].length = [(1 : Int), 2, 3, 4].length ∧
    ∃ r, (calulate (0 : Int) 3 [5, 7, 9, 11] [1, 2, 3, 4]
        (total (fun x0 x1 => x0 - x1))).result = Except.ok r ∧
      r.length = [(5 : Int), 7, 9, 11].length ∧
      (∀ (i : Nat) (x0 x1 : Int), [(5 : Int), 7, 9, 11][i]? = some x0 →
        [(1 : Int), 2, 3, 4][i]? = some x1 → r[i]? = some (x0 - x1)) ∧
      r = List.zipWith (fun x0 x1 => x0 - x1) [5, 7, 9, 11] [1, 2, 3, 4] :=
  ⟨by decide, rfl,
    calulate_elementwise (0 : Int) 3 (by decide) (fun x0 x1 => x0 - x1)
      [5, 7, 9, 11] [1, 2, 3, 4] rfl⟩

/-- C2: for every `N ≥ 1` and operands of equal length the partitions built by
`calulate` cover the index range exactly once: every index `i < len(a)` occurs
exactly once in the partition of one worker `k < N` and in no other partition,
and no partition holds an index `≥ len(a)`; `len(a) = 0` included. -/
theorem targets_cover_once (zero : T) (N : Nat) (hN : 1 ≤ N) (a b : List T)
    (binary : T → T → Option T) (hlen : a.length = b.length) :
    (∀ i, i < a.length →
      ∃ k, k < N ∧
        (∃ t, (calulate zero N a b binary).targets[k]? = some t ∧ t.count i = 1) ∧
        ∀ j t, j ≠ k → (calulate zero N a b binary).targets[j]? = some t → i ∉ t) ∧
    (∀ t ∈ (calulate zero N a b binary).targets, ∀ i ∈ t, i < a.length) := by
  rw [calulate_of_length_eq zero N a b binary hlen]
  refine ⟨fun i hi => ⟨i % N, Nat.mod_lt _ hN, ?_, ?_⟩, ?_⟩
  · refine ⟨(iota a.length).filter (fun j => j % N == i % N), ?_, ?_⟩
    · simp only [packTargets_getElem?, if_pos (Nat.mod_lt i hN)]
    · rw [count_filter_iota, if_pos ⟨hi, rfl⟩]
  · intro j t hjk ht
    simp only [packTargets_getElem?] at ht
    by_cases hj : j < N
    · rw [if_pos hj] at ht
      cases ht
      apply List.count_eq_zero.mp
      rw [count_filter_iota, if_neg]
      exact fun h => hjk h.2.symm
    · rw [if_neg hj] at ht
      cases ht
  · exact fun t ht i hi => packTargets_lt N a.length t ht i hi

/-- C2 at `N = 2` and operands of length 3. -/
theorem targets_cover_once_witness :
    1 ≤ 2 ∧ [(1 : Int), 2, 3].length = [(4 : Int), 5, 6].length ∧
    (∀ i, i < [(1 : Int), 2, 3].length →
      ∃ k, k < 2 ∧
        (∃ t, (calulate (0 : Int) 2 [1, 2, 3] [4, 5, 6]
            (total (fun x0 x1 => x0 + x1))).targets[k]? = some t ∧ t.count i = 1) ∧
        ∀ j t, j ≠ k → (calulate (0 : Int) 2 [1, 2, 3] [4, 5, 6]
            (total (fun x0 x1 => x0 + x1))).targets[j]? = some t → i ∉ t) ∧
    (∀ t ∈ (calulate (0 : Int) 2 [1, 2, 3] [4, 5, 6]
        (total (fun x0 x1 => x0 + x1))).targets, ∀ i ∈ t, i < [(1 : Int), 2, 3].length) :=
  ⟨by decide, rfl,
    targets_cover_once (0 : Int) 2 (by decide) [1, 2, 3] [4, 5, 6]
      (total (fun x0 x1 => x0 + x1)) rfl⟩

end Contract

end MultiThreadBinary

namespace MultiThreadBinary

section LengthCheck

variable {T : Type}

/-- A write never raises the assertion fault. -/
theorem add_fault_ne_assertion (t0 t1 : List T) (binary : T → T → Option T)
    (m : Machine T) (i : Nat) (hm : m.fault ≠ some Fault.assertion) :
    (calulate.add t0 t1 binary m i).fault ≠ some Fault.assertion := by
  unfold calulate.add
  split
  · exact hm
  · split
    · split
      · simp
      · split <;> simp [*]
    · simp

/-- A worker body never raises the assertion fault. -/
theorem exec_fault_ne_assertion (t0 t1 : List T) (binary : T → T → Option T)
    (l : List Nat) (m : Machine T) (hm : m.fault ≠ some Fault.assertion) :
    (calulate.exec t0 t1 binary m l).fault ≠ some Fault.assertion := by
  induction l generalizing m with
  | nil => exact hm
  | cons i l ih => exact ih _ (add_fault_ne_assertion t0 t1 binary m i hm)

/-- A call with operands of different lengths stops at the assertion: nothing
is built, created, joined or computed. -/
theorem calulate_of_length_ne (zero : T) (N : Nat) (t0 t1 : List T)
    (binary : T → T → Option T) (h : t0.length ≠ t1.length) :
    calulate zero N t0 t1 binary
      = { targets := [], threads := [], joined := 0, calls := [],
          result := Except.error Fault.assertion } := by
  unfold calulate
  rw [if_pos h]

/-- C3: for every `N` and operands with `len(a) ≠ len(b)` the call of
`calulate` (and so of `add`, `sub`, `mult`, `div`) fails at the length check,
before any partition is built and before any worker is created, with no
invocation of the operator; with `len(a) = len(b)` the length check does not
fail. -/
theorem length_check_first (zero : T) (A : Arith T) (N : Nat) (a b : List T)
    (binary : T → T → Option T) :
    (a.length ≠ b.length →
      ((calulate zero N a b binary).result = Except.error Fault.assertion ∧
        (calulate zero N a b binary).targets = [] ∧
        (calulate zero N a b binary).threads = [] ∧
        (calulate zero N a b binary).calls = []) ∧
      ((add A N a b).result = Except.error Fault.assertion ∧
        (add A N a b).targets = [] ∧ (add A N a b).threads = [] ∧
        (add A N a b).calls = []) ∧
      ((sub A N a b).result = Except.error Fault.assertion ∧
        (sub A N a b).targets = [] ∧ (sub A N a b).threads = [] ∧
        (sub A N a b).calls = []) ∧
      ((mult A N a b).result = Except.error Fault.assertion ∧
        (mult A N a b).targets = [] ∧ (mult A N a b).threads = [] ∧
        (mult A N a b).calls = []) ∧
      ((div A N a b).result = Except.error Fault.assertion ∧
        (div A N a b).targets = [] ∧ (div A N a b).threads = [] ∧
        (div A N a b).calls = [])) ∧
    (a.length = b.length →
      (calulate zero N a b binary).result ≠ Except.error Fault.assertion ∧
      (add A N a b).result ≠ Except.error Fault.assertion ∧
      (sub A N a b).result ≠ Except.error Fault.assertion ∧
      (mult A N a b).result ≠ Except.error Fault.assertion ∧
      (div A N a b).result ≠ Except.error Fault.assertion) := by
  have hpass : ∀ (z : T) (f : T → T → Option T), a.length = b.length →
      (calulate z N a b f).result ≠ Except.error Fault.assertion := by
    intro z f h
    rw [calulate_of_length_eq z N a b f h]
    have hne := exec_fault_ne_assertion a b f
      (packTargets N (iota N) (iota a.length)).flatten
      { ret := List.replicate a.length z, calls := [], fault := none } (by simp)
    simp only [Machine.result]
    split
    · rename_i f' hf'
      intro heq
      cases heq
      exact hne hf'
    · simp
  constructor
  · intro h
    simp only [add, sub, mult, div, calulate_of_length_ne _ N a b _ h]
    simp
  · intro h
    exact ⟨hpass zero binary h, hpass _ _ h, hpass _ _ h, hpass _ _ h, hpass _ _ h⟩

/-- C3 at `N = 2`: operands of lengths 2 and 1 fail the check, operands of
length 2 pass it. -/
theorem length_check_first_witness :
    ([(1 : Int), 2].length ≠ [(3 : Int)].length ∧
      (div (Arith.signed 32) 2 [1, 2] [3]).result = Except.error Fault.assertion ∧
      (div (Arith.signed 32) 2 [1, 2] [3]).targets = [] ∧
      (div (Arith.signed 32) 2 [1, 2] [3]).threads = [] ∧
      (div (Arith.signed 32) 2 [1, 2] [3]).calls = []) ∧
    ([(1 : Int), 2].length = [(3 : Int), 0].length ∧
      (div (Arith.signed 32) 2 [1, 2] [3, 0]).result ≠ Except.error Fault.assertion) :=
  ⟨⟨by decide,
      ((length_check_first (0 : Int) (Arith.signed 32) 2 [1, 2] [3]
        (total (fun x0 x1 => x0 + x1))).1 (by decide)).2.2.2.2⟩,
    ⟨rfl,
      ((length_check_first (0 : Int) (Arith.signed 32) 2 [1, 2] [3, 0]
        (total (fun x0 x1 => x0 + x1))).2 rfl).2.2.2.2⟩⟩

/-- C4: for every `N ≥ 1` and operands of equal length the call returns a
vector whose length is `len(a)`; `N > len(a)` and `N = 1` are not special. -/
theorem result_length (zero : T) (N : Nat) (hN : 1 ≤ N) (op : T → T → T)
    (a b : List T) (hlen : a.length = b.length) :
    ∃ r, (calulate zero N a b (total op)).result = Except.ok r ∧ r.length = a.length := by
  refine ⟨List.zipWith op a b, ?_, ?_⟩
  · exact calulate_result_of_agree zero N hN a b (total op) op hlen
      (fun _ _ _ _ _ => rfl)
  · simp [List.length_zipWith, hlen]

/-- C4 at `N = 5 > len(a) = 2` and at `N = 1`. -/
theorem result_length_witness :
    (1 ≤ 5 ∧ [(1 : Int), 2].length = [(3 : Int), 4].length ∧
      ∃ r, (calulate (0 : Int) 5 [1, 2] [3, 4] (total (fun x0 x1 => x0 * x1))).result
        = Except.ok r ∧ r.length = [(1 : Int), 2].length) ∧
    (1 ≤ 1 ∧ [(1 : Int), 2].length = [(3 : Int), 4].length ∧
      ∃ r, (calulate (0 : Int) 1 [1, 2] [3, 4] (total (fun x0 x1 => x0 * x1))).result
        = Except.ok r ∧ r.length = [(1 : Int), 2].length) :=
  ⟨⟨by decide, rfl,
      result_length (0 : Int) 5 (by decide) (fun x0 x1 => x0 * x1) [1, 2] [3, 4] rfl⟩,
    ⟨by decide, rfl,
      result_length (0 : Int) 1 (by decide) (fun x0 x1 => x0 * x1) [1, 2] [3, 4] rfl⟩⟩

end LengthCheck

end MultiThreadBinary

namespace MultiThreadBinary

section NamedOperations

variable {T : Type}

/-- C5: the four named operations are `calulate` with the operands in argument
order: for every `N ≥ 1`, operands `a`, `b` of equal length and index `i`,
`add(a,b)[i] = a[i] + b[i]`, `sub(a,b)[i] = a[i] - b[i]`,
`mult(a,b)[i] = a[i] * b[i]` and `div(a,b)[i] = a[i] / b[i]`. -/
theorem named_operations [Zero T] [Add T] [Sub T] [Mul T] [Div T] (N : Nat) (hN : 1 ≤ N)
    (a b : List T) (hlen : a.length = b.length) :
    ∃ ra rs rm rd,
      (add (Arith.exact T) N a b).result = Except.ok ra ∧
      (sub (Arith.exact T) N a b).result = Except.ok rs ∧
      (mult (Arith.exact T) N a b).result = Except.ok rm ∧
      (div (Arith.exact T) N a b).result = Except.ok rd ∧
      ∀ (i : Nat) (x0 x1 : T), a[i]? = some x0 → b[i]? = some x1 →
        ra[i]? = some (x0 + x1) ∧ rs[i]? = some (x0 - x1) ∧
        rm[i]? = some (x0 * x1) ∧ rd[i]? = some (x0 / x1) := by
  refine ⟨List.zipWith (fun x0 x1 => x0 + x1) a b, List.zipWith (fun x0 x1 => x0 - x1) a b,
    List.zipWith (fun x0 x1 => x0 * x1) a b, List.zipWith (fun x0 x1 => x0 / x1) a b,
    ?_, ?_, ?_, ?_, ?_⟩
  · exact calulate_result_of_agree _ N hN a b _ _ hlen (fun _ _ _ _ _ => rfl)
  · exact calulate_result_of_agree _ N hN a b _ _ hlen (fun _ _ _ _ _ => rfl)
  · exact calulate_result_of_agree _ N hN a b _ _ hlen (fun _ _ _ _ _ => rfl)
  · exact calulate_result_of_agree _ N hN a b _ _ hlen (fun _ _ _ _ _ => rfl)
  · intro i x0 x1 h0 h1
    exact ⟨zipWith_getElem?_of_some _ a b i x0 x1 h0 h1,
      zipWith_getElem?_of_some _ a b i x0 x1 h0 h1,
      zipWith_getElem?_of_some _ a b i x0 x1 h0 h1,
      zipWith_getElem?_of_some _ a b i x0 x1 h0 h1⟩

/-- C5 at `N = 2` on the rationals, where neither `-` nor `/` commutes. -/
theorem named_operations_witness :
    1 ≤ 2 ∧ [(6 : ℚ), 1, 5].length = [(3 : ℚ), 2, 4].length ∧
    ∃ ra rs rm rd,
      (add (Arith.exact ℚ) 2 [6, 1, 5] [3, 2, 4]).result = Except.ok ra ∧
      (sub (Arith.exact ℚ) 2 [6, 1, 5] [3, 2, 4]).result = Except.ok rs ∧
      (mult (Arith.exact ℚ) 2 [6, 1, 5] [3, 2, 4]).result = Except.ok rm ∧
      (div (Arith.exact ℚ) 2 [6, 1, 5] [3, 2, 4]).result = Except.ok rd ∧
      ∀ (i : Nat) (x0 x1 : ℚ), [(6 : ℚ), 1, 5][i]? = some x0 →
        [(3 : ℚ), 2, 4][i]? = some x1 →
        ra[i]? = some (x0 + x1) ∧ rs[i]? = some (x0 - x1) ∧
        rm[i]? = some (x0 * x1) ∧ rd[i]? = some (x0 / x1) :=
  ⟨by decide, rfl, named_operations 2 (by decide) [6, 1, 5] [3, 2, 4] rfl⟩

end NamedOperations

section Scheduling

variable {T : Type}

/-- C6: the returned values do not depend on the scheduling of the workers: for
every `N ≥ 1`, operator `op` and operands of equal length, running the bodies of
the `N` workers on the pre-allocated result vector in any order (every
permutation of the list of workers, and even every interleaving of their single
writes) ends in the result that `calulate` returns. -/
theorem schedule_independent (zero : T) (N : Nat) (hN : 1 ≤ N) (op : T → T → T)
    (a b : List T) (hlen : a.length = b.length) :
    (∀ order : List (List Nat), order.Perm (calulate zero N a b (total op)).targets →
      (runThreads a b (total op) order
        { ret := List.replicate a.length zero, calls := [], fault := none }).result
        = (calulate zero N a b (total op)).result) ∧
    (∀ writes : List Nat, writes.Perm (calulate zero N a b (total op)).targets.flatten →
      (calulate.exec a b (total op)
        { ret := List.replicate a.length zero, calls := [], fault := none } writes).result
        = (calulate zero N a b (total op)).result) := by
  have hres := calulate_result_of_agree zero N hN a b (total op) op hlen
    (fun _ _ _ _ _ => rfl)
  have key : ∀ writes : List Nat,
      writes.Perm (packTargets N (iota N) (iota a.length)).flatten →
      (calulate.exec a b (total op)
        { ret := List.replicate a.length zero, calls := [], fault := none } writes).result
        = Except.ok (List.zipWith op a b) := by
    intro writes hperm
    have hmem : ∀ i, i ∈ writes ↔ i < a.length := fun i =>
      (hperm.mem_iff).trans (mem_flatten_packTargets N a.length hN i)
    obtain ⟨hf, _, hl, hget⟩ := exec_of_agree a b (total op) op a.length rfl hlen.symm
      writes (fun i hi => (hmem i).mp hi) (fun _ _ _ _ _ _ => rfl)
      { ret := List.replicate a.length zero, calls := [], fault := none } rfl (by simp)
    simp only [Machine.result, hf]
    congr 1
    exact eq_zipWith_of_getElem? op a b _ (List.replicate a.length zero) _ hlen hl
      (fun i hi => (hmem i).mpr hi) hget
  rw [hres]
  rw [calulate_of_length_eq zero N a b (total op) hlen]
  constructor
  · intro order hperm
    rw [runThreads_eq_exec]
    exact key _ (List.Perm.flatten hperm)
  · intro writes hperm
    exact key _ hperm

/-- C6 at `N = 2`, subtraction, with the two workers run in reverse order. -/
theorem schedule_independent_witness :
    1 ≤ 2 ∧ [(5 : Int), 7, 9].length = [(1 : Int), 2, 3].length ∧
    [[1], [0, 2]].Perm
      (calulate (0 : Int) 2 [5, 7, 9] [1, 2, 3] (total (fun x0 x1 => x0 - x1))).targets ∧
    (runThreads [(5 : Int), 7, 9] [1, 2, 3] (total (fun x0 x1 => x0 - x1)) [[1], [0, 2]]
        { ret := List.replicate [(5 : Int), 7, 9].length 0, calls := [], fault := none }).result
      = (calulate (0 : Int) 2 [5, 7, 9] [1, 2, 3] (total (fun x0 x1 => x0 - x1))).result :=
  ⟨by decide, rfl, List.Perm.swap _ _ _,
    (schedule_independent (0 : Int) 2 (by decide) (fun x0 x1 => x0 - x1)
      [5, 7, 9] [1, 2, 3] rfl).1 [[1], [0, 2]] (List.Perm.swap _ _ _)⟩

end Scheduling

end MultiThreadBinary

namespace MultiThreadBinary

section Balance

/-- The size of the partition of worker `k < N`: `n / N` indices, and one more
for the first `n % N` workers. -/
theorem length_filter_iota (N n k : Nat) (hN : 1 ≤ N) (hk : k < N) :
    ((iota n).filter (fun i => i % N == k)).length
      = n / N + if k < n % N then 1 else 0 := by
  have h := Nat.count_modEq_card n hN k
  rw [Nat.mod_eq_of_lt hk] at h
  rw [← h]
  unfold Nat.count iota
  rw [List.countP_eq_length_filter]
  congr 2
  funext i
  rw [Bool.eq_iff_iff]
  simp [Nat.ModEq, Nat.mod_eq_of_lt hk]

/-- C7: for every `N ≥ 1` and every `n` the work is balanced to within one
element: the sizes of the partitions of `[0, n)` of any two workers `j`, `k < N`
differ by at most 1. -/
theorem targets_balanced (N n : Nat) (hN : 1 ≤ N) (j k : Nat) (hj : j < N) (hk : k < N) :
    ∃ tj tk, (packTargets N (iota N) (iota n))[j]? = some tj ∧
      (packTargets N (iota N) (iota n))[k]? = some tk ∧
      tj.length ≤ tk.length + 1 ∧ tk.length ≤ tj.length + 1 := by
  refine ⟨(iota n).filter (fun i => i % N == j), (iota n).filter (fun i => i % N == k),
    ?_, ?_, ?_⟩
  · rw [packTargets_getElem?, if_pos hj]
  · rw [packTargets_getElem?, if_pos hk]
  · rw [length_filter_iota N n j hN hj, length_filter_iota N n k hN hk]
    constructor <;> split <;> split <;> omega

/-- C7 at `N = 3`, `n = 7`, workers 0 and 2. -/
theorem targets_balanced_witness :
    1 ≤ 3 ∧ 0 < 3 ∧ 2 < 3 ∧
    ∃ tj tk, (packTargets 3 (iota 3) (iota 7))[0]? = some tj ∧
      (packTargets 3 (iota 3) (iota 7))[2]? = some tk ∧
      tj.length ≤ tk.length + 1 ∧ tk.length ≤ tj.length + 1 :=
  ⟨by decide, by decide, by decide,
    targets_balanced 3 7 (by decide) 0 2 (by decide) (by decide)⟩

end Balance

section Scenarios

/-- C8: with `N = 2`, `a = [1,9,8,6,7,2,2]` and `b = [4,1,2,1,6,8,9]`:
`add(a,b) = [5,10,10,7,13,10,11]`, `sub(a,b) = [-3,8,6,5,1,-6,-7]` and
`mult(a,b) = [4,9,16,6,42,16,18]`.  (The operands of `main` are `float`; these
values and results are small integers, which `float` holds exactly.) -/
theorem demo_scenario :
    (add (Arith.exact ℚ) 2 [1, 9, 8, 6, 7, 2, 2] [4, 1, 2, 1, 6, 8, 9]).result
      = Except.ok [5, 10, 10, 7, 13, 10, 11] ∧
    (sub (Arith.exact ℚ) 2 [1, 9, 8, 6, 7, 2, 2] [4, 1, 2, 1, 6, 8, 9]).result
      = Except.ok [-3, 8, 6, 5, 1, -6, -7] ∧
    (mult (Arith.exact ℚ) 2 [1, 9, 8, 6, 7, 2, 2] [4, 1, 2, 1, 6, 8, 9]).result
      = Except.ok [4, 9, 16, 6, 42, 16, 18] := by
  have h := fun (op : ℚ → ℚ → ℚ) (binary : ℚ → ℚ → Option ℚ)
      (hop : ∀ x0 x1, binary x0 x1 = some (op x0 x1)) =>
    calulate_result_of_agree (0 : ℚ) 2 (by decide) [1, 9, 8, 6, 7, 2, 2]
      [4, 1, 2, 1, 6, 8, 9] binary op rfl (fun _ x0 x1 _ _ => hop x0 x1)
  refine ⟨?_, ?_, ?_⟩
  · exact (h (fun x0 x1 => x0 + x1) _ (fun _ _ => rfl)).trans (by norm_num)
  · exact (h (fun x0 x1 => x0 - x1) _ (fun _ _ => rfl)).trans (by norm_num)
  · exact (h (fun x0 x1 => x0 * x1) _ (fun _ _ => rfl)).trans (by norm_num)

variable {T : Type}

/-- C9: for every `N`, with `a = []` and `b = []` the call passes the length
check and returns the empty vector; all `N` partitions are empty and the
operator is never invoked. -/
theorem empty_operands (zero : T) (N : Nat) (binary : T → T → Option T) :
    (calulate zero N [] [] binary).result = Except.ok [] ∧
    (calulate zero N [] [] binary).targets.length = N ∧
    (∀ t ∈ (calulate zero N [] [] binary).targets, t = []) ∧
    (calulate zero N [] [] binary).calls = [] := by
  have hall : ∀ t ∈ packTargets N (iota N) (iota ([] : List T).length), t = [] := by
    intro t ht
    obtain ⟨k, _, rfl⟩ := (mem_packTargets N _ t).mp ht
    rfl
  have hflat : (packTargets N (iota N) (iota ([] : List T).length)).flatten = [] := by
    rw [List.flatten_eq_nil_iff]
    exact hall
  rw [calulate_of_length_eq zero N [] [] binary rfl]
  simp only [hflat]
  exact ⟨rfl, packTargets_length N _, hall, rfl⟩

end Scenarios

end MultiThreadBinary

namespace MultiThreadBinary

section IntegerDivision

/-- Truncated division stays inside `[-M, M)` unless the divisor is zero or the
quotient is `-M / -1`. -/
theorem tdiv_bound (M x y : Int) (h1 : -M ≤ x) (h2 : x < M) (hy : y ≠ 0)
    (hov : ¬ (x = -M ∧ y = -1)) : -M ≤ x.tdiv y ∧ x.tdiv y < M := by
  have habs : (x.tdiv y).natAbs = x.natAbs / y.natAbs := Int.natAbs_tdiv x y
  have hle : x.natAbs / y.natAbs ≤ x.natAbs := Nat.div_le_self _ _
  by_cases hy1 : y = 1
  · subst hy1
    rw [Int.tdiv_one]
    exact ⟨h1, h2⟩
  by_cases hy2 : y = -1
  · subst hy2
    rw [Int.tdiv_neg, Int.tdiv_one]
    have : x ≠ -M := fun h => hov ⟨h, rfl⟩
    omega
  · have h2y : 2 ≤ y.natAbs := by omega
    have hlt : x.natAbs / y.natAbs ≤ x.natAbs / 2 := Nat.div_le_div_left h2y (by decide)
    omega

/-- The signed `/` returns the truncated quotient for a representable dividend,
a nonzero divisor and a representable quotient. -/
theorem over_signed_of_ok (w : Nat) (x y : Int) (hx : inRange w x = true) (hy : y ≠ 0)
    (hov : ¬ (x = -(2 : Int) ^ (w - 1) ∧ y = -1)) :
    (Arith.signed w).over x y = some (Int.tdiv x y) := by
  simp only [inRange, Bool.and_eq_true, decide_eq_true_eq] at hx
  have hb := tdiv_bound ((2 : Int) ^ (w - 1)) x y hx.1 hx.2 hy hov
  simp [Arith.signed, checked, inRange, hy, hb.1, hb.2]

/-- C10, as the code has it: for the signed `w`-bit integer type, `N ≥ 1` and
operands of equal length, a zero in `b` makes `div(a, b)` fail with the
arithmetic fault and no result vector; if `b` has no zero and no pair
`(a[i], b[i])` is the smallest value over `-1` (the one quotient the type
cannot represent) then `div(a, b)` returns the truncated quotient
`a[i] / b[i]` in every slot. -/
theorem div_signed (w N : Nat) (hN : 1 ≤ N) (a b : List Int)
    (hlen : a.length = b.length) :
    ((0 : Int) ∈ b →
      (div (Arith.signed w) N a b).result = Except.error Fault.arithmetic) ∧
    ((∀ x ∈ a, inRange w x = true) → (0 : Int) ∉ b →
      (-(2 : Int) ^ (w - 1), (-1 : Int)) ∉ List.zip a b →
      ∃ r, (div (Arith.signed w) N a b).result = Except.ok r ∧ r.length = a.length ∧
        ∀ (i : Nat) (x0 x1 : Int), a[i]? = some x0 → b[i]? = some x1 →
          r[i]? = some (Int.tdiv x0 x1)) := by
  constructor
  · intro hzero
    obtain ⟨i, hi, hbi⟩ := List.getElem_of_mem hzero
    have hia : i < a.length := hlen ▸ hi
    unfold div
    rw [calulate_of_length_eq _ N a b _ hlen]
    have hfault := exec_of_trap a b (fun x0 x1 => (Arith.signed w).over x0 x1) a.length rfl
      hlen.symm (packTargets N (iota N) (iota a.length)).flatten
      (fun j hj => (mem_flatten_packTargets N a.length hN j).mp hj)
      ⟨i, (mem_flatten_packTargets N a.length hN i).mpr hia, a[i], 0,
        List.getElem?_eq_getElem hia, by rw [List.getElem?_eq_getElem hi, hbi],
        by simp [Arith.signed]⟩
      { ret := List.replicate a.length (Arith.signed w).zero, calls := [], fault := none }
      rfl (by simp)
    simp only [Machine.result, hfault]
  · intro hrange hzero hov
    refine ⟨List.zipWith Int.tdiv a b, ?_, by simp [List.length_zipWith, hlen],
      fun i x0 x1 h0 h1 => zipWith_getElem?_of_some _ a b i x0 x1 h0 h1⟩
    refine calulate_result_of_agree _ N hN a b _ Int.tdiv hlen (fun i x0 x1 h0 h1 => ?_)
    obtain ⟨hia, h0⟩ := List.getElem?_eq_some_iff.mp h0
    obtain ⟨hib, h1⟩ := List.getElem?_eq_some_iff.mp h1
    apply over_signed_of_ok w x0 x1
    · exact hrange x0 (h0 ▸ List.getElem_mem hia)
    · intro h
      exact hzero (h ▸ h1 ▸ List.getElem_mem hib)
    · rintro ⟨hx, hy⟩
      apply hov
      have hz : (List.zip a b)[i]? = some (x0, x1) := by
        simp [List.zip, List.getElem?_zipWith, List.getElem?_eq_getElem hia,
          List.getElem?_eq_getElem hib, h0, h1]
      rw [← hx, ← hy]
      exact List.mem_iff_getElem?.mpr ⟨i, hz⟩

/-- C10 as amended, for `int` (`w = 32`) and `N = 2`: `[7, -8] / [2, 0]` fails,
`[7, -8] / [2, 3]` returns the truncated quotients. -/
theorem div_signed_witness :
    (1 ≤ 2 ∧ [(7 : Int), -8].length = [(2 : Int), 0].length ∧ (0 : Int) ∈ [(2 : Int), 0] ∧
      (div (Arith.signed 32) 2 [7, -8] [2, 0]).result = Except.error Fault.arithmetic) ∧
    (1 ≤ 2 ∧ [(7 : Int), -8].length = [(2 : Int), 3].length ∧
      (∀ x ∈ [(7 : Int), -8], inRange 32 x = true) ∧ (0 : Int) ∉ [(2 : Int), 3] ∧
      (-(2 : Int) ^ (32 - 1), (-1 : Int)) ∉ List.zip [(7 : Int), -8] [(2 : Int), 3] ∧
      ∃ r, (div (Arith.signed 32) 2 [7, -8] [2, 3]).result = Except.ok r ∧
        r.length = [(7 : Int), -8].length ∧
        ∀ (i : Nat) (x0 x1 : Int), [(7 : Int), -8][i]? = some x0 →
          [(2 : Int), 3][i]? = some x1 → r[i]? = some (Int.tdiv x0 x1)) :=
  ⟨⟨by decide, rfl, by decide,
      (div_signed 32 2 (by decide) [7, -8] [2, 0] rfl).1 (by decide)⟩,
    ⟨by decide, rfl, by decide, by decide, by decide,
      (div_signed 32 2 (by decide) [7, -8] [2, 3] rfl).2 (by decide) (by decide)
        (by decide)⟩⟩

/-- C10 as stated fails for `int`: in `[-2147483648] / [-1]` both operands are
values of the type and no divisor is zero, yet the quotient `2147483648` is not
representable and the call ends in the arithmetic fault. -/
theorem div_signed_overflow :
    1 ≤ 2 ∧ [(-2147483648 : Int)].length = [(-1 : Int)].length ∧
    (∀ x ∈ [(-2147483648 : Int)], inRange 32 x = true) ∧
    (∀ x ∈ [(-1 : Int)], inRange 32 x = true) ∧
    (0 : Int) ∉ [(-1 : Int)] ∧
    (div (Arith.signed 32) 2 [-2147483648] [-1]).result = Except.error Fault.arithmetic :=
  ⟨by decide, rfl, by decide, by decide, by decide, rfl⟩

end IntegerDivision

end MultiThreadBinary

namespace MultiThreadBinary

section ForkJoin

variable {T : Type}

/-- A partition whose worker id is not below `n` is empty. -/
theorem filter_iota_of_le (N n k : Nat) (h : n ≤ k) :
    (iota n).filter (fun i => i % N == k) = [] := by
  rw [List.filter_eq_nil_iff]
  intro i hi
  have hin : i < n := List.mem_range.mp hi
  have hmod : i % N ≤ i := Nat.mod_le i N
  simp only [beq_iff_eq]
  omega

/-- With operands of equal length and a callable that never traps the pass over
the partitions ends without a fault, for every number of threads. -/
theorem exec_fault_of_total (zero : T) (N : Nat) (op : T → T → T) (a b : List T)
    (hlen : a.length = b.length) :
    (calulate.exec a b (total op)
      { ret := List.replicate a.length zero, calls := [], fault := none }
      (packTargets N (iota N) (iota a.length)).flatten).fault = none := by
  have hin : ∀ i ∈ (packTargets N (iota N) (iota a.length)).flatten, i < a.length := by
    intro i hi
    obtain ⟨t, ht, hit⟩ := List.mem_flatten.mp hi
    exact packTargets_lt N a.length t ht i hit
  exact (exec_of_agree a b (total op) op a.length rfl hlen.symm _ hin
    (fun _ _ _ _ _ _ => rfl)
    { ret := List.replicate a.length zero, calls := [], fault := none } rfl (by simp)).1

/-- A call whose pass over the partitions ends without a fault: one thread was
created for every partition, in order, all of them were joined, and `binary`
was invoked at every index of every partition. -/
theorem calulate_of_ok (zero : T) (N : Nat) (a b : List T) (binary : T → T → Option T)
    (hlen : a.length = b.length)
    (hf : (calulate.exec a b binary
      { ret := List.replicate a.length zero, calls := [], fault := none }
      (packTargets N (iota N) (iota a.length)).flatten).fault = none) :
    (calulate zero N a b binary).threads = packTargets N (iota N) (iota a.length) ∧
    (calulate zero N a b binary).joined = N ∧
    (calulate zero N a b binary).calls = (packTargets N (iota N) (iota a.length)).flatten := by
  have hthreads := spawnAll_threads_of_ok a b binary (packTargets N (iota N) (iota a.length))
    { mem := { ret := List.replicate a.length zero, calls := [], fault := none },
      threads := [], joined := 0 } hf
  have hcalls := exec_calls_of_ok a b binary (packTargets N (iota N) (iota a.length)).flatten
    { ret := List.replicate a.length zero, calls := [], fault := none } hf
  rw [calulate_of_length_eq zero N a b binary hlen]
  rw [List.nil_append] at hthreads hcalls
  refine ⟨hthreads, ?_, hcalls⟩
  simp only [hf]
  rw [hthreads]
  exact packTargets_length N a.length

/-- C11: every call with operands of equal length builds exactly `N` partitions,
the one of worker `k` at position `k` (empty for `k ≥ n`), and creates its
threads one per partition in the order of the worker ids.  A call that returns
a vector has created all `N` threads, has run every one of them over its whole
partition and has joined all `N` before returning; with an operator that never
traps the call does return.  A call that a trap ends early has created threads
for an initial part of the partitions only and has joined no more threads than
it created. -/
theorem fork_join (zero : T) (N : Nat) (a b : List T) (binary : T → T → Option T)
    (op : T → T → T) (hlen : a.length = b.length) :
    (calulate zero N a b binary).targets.length = N ∧
    (∀ k, k < N → (calulate zero N a b binary).targets[k]?
      = some ((iota a.length).filter (fun i => i % N == k))) ∧
    (∀ k, k < N → a.length ≤ k → (calulate zero N a b binary).targets[k]? = some []) ∧
    (∃ c, c ≤ N ∧ (calulate zero N a b binary).threads
      = (calulate zero N a b binary).targets.take c) ∧
    (calulate zero N a b binary).joined ≤ (calulate zero N a b binary).threads.length ∧
    (∀ r, (calulate zero N a b binary).result = Except.ok r →
      (calulate zero N a b binary).threads = (calulate zero N a b binary).targets ∧
      (calulate zero N a b binary).threads.length = N ∧
      (calulate zero N a b binary).joined = N ∧
      (calulate zero N a b binary).calls
        = (calulate zero N a b binary).targets.flatten) ∧
    (∃ r, (calulate zero N a b (total op)).result = Except.ok r) ∧
    (calulate zero N a b (total op)).threads = (calulate zero N a b (total op)).targets ∧
    (calulate zero N a b (total op)).threads.length = N ∧
    (calulate zero N a b (total op)).joined = N ∧
    (calulate zero N a b (total op)).calls
      = (calulate zero N a b (total op)).targets.flatten := by
  have htargets : ∀ f : T → T → Option T,
      (calulate zero N a b f).targets = packTargets N (iota N) (iota a.length) := by
    intro f
    rw [calulate_of_length_eq zero N a b f hlen]
  have hresult : ∀ f : T → T → Option T, (calulate zero N a b f).result
      = (calulate.exec a b f
        { ret := List.replicate a.length zero, calls := [], fault := none }
        (packTargets N (iota N) (iota a.length)).flatten).result := by
    intro f
    rw [calulate_of_length_eq zero N a b f hlen]
  have htot := exec_fault_of_total zero N op a b hlen
  obtain ⟨ht1, ht2, ht3⟩ := calulate_of_ok zero N a b (total op) hlen htot
  refine ⟨?_, ?_, ?_, ?_, ?_, ?_, ?_, ?_, ?_, ht2, ?_⟩
  · rw [htargets, packTargets_length]
  · intro k hk
    rw [htargets, packTargets_getElem?, if_pos hk]
  · intro k hk hle
    rw [htargets, packTargets_getElem?, if_pos hk, filter_iota_of_le N a.length k hle]
  · obtain ⟨c, hc, hthreads⟩ := spawnAll_threads_take a b binary
      (packTargets N (iota N) (iota a.length))
      { mem := { ret := List.replicate a.length zero, calls := [], fault := none },
        threads := [], joined := 0 }
    rw [packTargets_length] at hc
    refine ⟨c, hc, ?_⟩
    rw [calulate_of_length_eq zero N a b binary hlen]
    simpa using hthreads
  · rw [calulate_of_length_eq zero N a b binary hlen]
    simp only
    split
    · exact Nat.zero_le _
    · exact Nat.le_refl _
  · intro r hr
    have hf : (calulate.exec a b binary
        { ret := List.replicate a.length zero, calls := [], fault := none }
        (packTargets N (iota N) (iota a.length)).flatten).fault = none := by
      rw [hresult binary] at hr
      unfold Machine.result at hr
      split at hr
      · cases hr
      · assumption
    obtain ⟨h1, h2, h3⟩ := calulate_of_ok zero N a b binary hlen hf
    rw [htargets]
    exact ⟨h1, by rw [h1, packTargets_length], h2, h3⟩
  · rw [hresult (total op)]
    simp only [Machine.result, htot]
    exact ⟨_, rfl⟩
  · rw [htargets]
    exact ht1
  · rw [ht1, packTargets_length]
  · rw [htargets]
    exact ht3

/-- C11 at `N = 4` with operands of length 2: four threads, the last two with
an empty partition, all joined, the operator invoked at indices 0 and 1; and
for `int` division with a zero divisor, where a worker traps: the threads
created are the ones for an initial part of the partitions. -/
theorem fork_join_witness :
    [(1 : Int), 2].length = [(3 : Int), 4].length ∧
    (calulate (0 : Int) 4 [1, 2] [3, 4] (total (fun x0 x1 => x0 + x1))).threads
      = [[0], [1], [], []] ∧
    (calulate (0 : Int) 4 [1, 2] [3, 4] (total (fun x0 x1 => x0 + x1))).joined = 4 ∧
    (calulate (0 : Int) 4 [1, 2] [3, 4] (total (fun x0 x1 => x0 + x1))).calls
      = (calulate (0 : Int) 4 [1, 2] [3, 4]
        (total (fun x0 x1 => x0 + x1))).targets.flatten ∧
    [(1 : Int), 2].length = [(0 : Int), 4].length ∧
    (div (Arith.signed 32) 4 [1, 2] [0, 4]).result = Except.error Fault.arithmetic ∧
    ∃ c, c ≤ 4 ∧ (div (Arith.signed 32) 4 [1, 2] [0, 4]).threads
      = (div (Arith.signed 32) 4 [1, 2] [0, 4]).targets.take c :=
  ⟨rfl, rfl,
    (fork_join (0 : Int) 4 [1, 2] [3, 4] (total (fun x0 x1 => x0 + x1))
      (fun x0 x1 => x0 + x1) rfl).2.2.2.2.2.2.2.2.2.1,
    (fork_join (0 : Int) 4 [1, 2] [3, 4] (total (fun x0 x1 => x0 + x1))
      (fun x0 x1 => x0 + x1) rfl).2.2.2.2.2.2.2.2.2.2,
    rfl, rfl,
    (fork_join (0 : Int) 4 [1, 2] [0, 4] (fun x0 x1 => (Arith.signed 32).over x0 x1)
      (fun x0 x1 => x0 + x1) rfl).2.2.2.1⟩

end ForkJoin

section RationalDivision

/-- C12: with `N = 2`, `a = [1,9,8,6,7,2,2]`, `b = [4,1,2,1,6,8,9]` and division
as exact rational arithmetic, `div(a,b) = [1/4, 9, 4, 6, 7/6, 1/4, 2/9]`. -/
theorem demo_division :
    (div (Arith.exact ℚ) 2 [1, 9, 8, 6, 7, 2, 2] [4, 1, 2, 1, 6, 8, 9]).result
      = Except.ok [1 / 4, 9, 4, 6, 7 / 6, 1 / 4, 2 / 9] := by
  have h := calulate_result_of_agree (0 : ℚ) 2 (by decide) [1, 9, 8, 6, 7, 2, 2]
    [4, 1, 2, 1, 6, 8, 9] (fun x0 x1 => (Arith.exact ℚ).over x0 x1)
    (fun x0 x1 => x0 / x1) rfl (fun _ _ _ _ _ => rfl)
  exact h.trans (by norm_num)

end RationalDivision

end MultiThreadBinary

namespace MultiThreadBinary

section Stripes

variable {T : Type}

/-- Membership in the partition of worker `k`. -/
theorem mem_filter_iota (N n k i : Nat) :
    i ∈ (iota n).filter (fun j => j % N == k) ↔ i < n ∧ i % N = k := by
  simp [iota]

/-- A partition lists its indices in strictly ascending order. -/
theorem pairwise_filter_iota (N n k : Nat) :
    ((iota n).filter (fun j => j % N == k)).Pairwise (fun i j => i < j) :=
  List.Pairwise.filter _ (List.pairwise_lt_range n)

/-- The number of terms of the progression `k, k + N, k + 2N, ...` below `n`. -/
theorem progression_lt_iff (N n k q : Nat) (hk : k < N) :
    k + q * N < n ↔ q < n / N + if k < n % N then 1 else 0 := by
  have h1 := Nat.div_add_mod n N
  have h2 : n % N < N := Nat.mod_lt _ (by omega)
  have h0 : n / N * N = N * (n / N) := Nat.mul_comm _ _
  constructor
  · intro h
    by_contra hc
    split at hc
    · have h3 : n / N + 1 ≤ q := by omega
      have h4 := Nat.mul_le_mul_right N h3
      rw [Nat.add_mul, Nat.one_mul] at h4
      omega
    · have h3 : n / N ≤ q := by omega
      have h4 := Nat.mul_le_mul_right N h3
      omega
  · intro h
    split at h
    · have h3 : q ≤ n / N := by omega
      have h4 := Nat.mul_le_mul_right N h3
      omega
    · have h3 : q + 1 ≤ n / N := by omega
      have h4 := Nat.mul_le_mul_right N h3
      rw [Nat.add_mul, Nat.one_mul] at h4
      omega

/-- The partition of worker `k < N` is the progression `k, k + N, k + 2N, ...`
cut off below `n`. -/
theorem filter_iota_eq_progression (N n k : Nat) (hk : k < N) :
    (iota n).filter (fun j => j % N == k)
      = (List.range (n / N + if k < n % N then 1 else 0)).map (fun q => k + q * N) := by
  have hN : 0 < N := by omega
  have hsorted : ((List.range (n / N + if k < n % N then 1 else 0)).map
      (fun q => k + q * N)).Pairwise (fun i j => i < j) := by
    apply List.Pairwise.map (fun q => k + q * N) _ (List.pairwise_lt_range _)
    intro p q hpq
    have hlt := Nat.mul_lt_mul_of_pos_right hpq hN
    show k + p * N < k + q * N
    omega
  apply List.eq_of_perm_of_sorted _ (pairwise_filter_iota N n k) hsorted
  rw [List.perm_ext_iff_of_nodup (pairwise_filter_iota N n k).nodup hsorted.nodup]
  intro i
  rw [mem_filter_iota, List.mem_map]
  constructor
  · rintro ⟨hi, hmod⟩
    have hdm := Nat.mod_add_div i N
    have hi' : k + i / N * N = i := by rw [← hmod, Nat.mul_comm]; exact hdm
    refine ⟨i / N, List.mem_range.mpr ?_, hi'⟩
    exact (progression_lt_iff N n k (i / N) hk).mp (by omega)
  · rintro ⟨q, hq, rfl⟩
    refine ⟨(progression_lt_iff N n k q hk).mpr (List.mem_range.mp hq), ?_⟩
    rw [Nat.add_mul_mod_self_right, Nat.mod_eq_of_lt hk]

/-- C13: for every `N ≥ 1`, every `n = len(a)` and every worker id `k < N`, the
partition of worker `k` is the strictly ascending list of all indices
`i < n` with `i % N = k`, that is `k, k + N, k + 2N, ...` below `n`; the worker
invokes the operator at these indices in this order. -/
theorem partition_ascending (zero : T) (N : Nat) (hN : 1 ≤ N) (a b : List T)
    (op : T → T → T) (hlen : a.length = b.length) (k : Nat) (hk : k < N) :
    ∃ t, (calulate zero N a b (total op)).targets[k]? = some t ∧
      t.Pairwise (fun i j => i < j) ∧
      (∀ i, i ∈ t ↔ i < a.length ∧ i % N = k) ∧
      t = (List.range (a.length / N + if k < a.length % N then 1 else 0)).map
        (fun q => k + q * N) ∧
      (calulate.exec a b (total op)
        { ret := List.replicate a.length zero, calls := [], fault := none } t).calls = t := by
  have _ := hN
  refine ⟨(iota a.length).filter (fun j => j % N == k), ?_, pairwise_filter_iota N _ k,
    fun i => mem_filter_iota N _ k i, filter_iota_eq_progression N _ k hk, ?_⟩
  · rw [calulate_of_length_eq zero N a b (total op) hlen]
    simp only [packTargets_getElem?, if_pos hk]
  · have h := (exec_of_agree a b (total op) op a.length rfl hlen.symm
      ((iota a.length).filter (fun j => j % N == k))
      (fun i hi => ((mem_filter_iota N _ k i).mp hi).1) (fun _ _ _ _ _ _ => rfl)
      { ret := List.replicate a.length zero, calls := [], fault := none } rfl
      (by simp)).2.1
    simpa using h

/-- C13 at `N = 3`, operands of length 8 and worker 1, whose partition is
`[1, 4, 7]`. -/
theorem partition_ascending_witness :
    1 ≤ 3 ∧ (List.replicate 8 (0 : Int)).length = (List.replicate 8 (0 : Int)).length ∧
    1 < 3 ∧
    (calulate (0 : Int) 3 (List.replicate 8 0) (List.replicate 8 0)
      (total (fun x0 x1 => x0 + x1))).targets[1]? = some [1, 4, 7] ∧
    ∃ t, (calulate (0 : Int) 3 (List.replicate 8 0) (List.replicate 8 0)
        (total (fun x0 x1 => x0 + x1))).targets[1]? = some t ∧
      t.Pairwise (fun i j => i < j) ∧
      (∀ i, i ∈ t ↔ i < (List.replicate 8 (0 : Int)).length ∧ i % 3 = 1) ∧
      t = (List.range ((List.replicate 8 (0 : Int)).length / 3 +
          if 1 < (List.replicate 8 (0 : Int)).length % 3 then 1 else 0)).map
        (fun q => 1 + q * 3) ∧
      (calulate.exec (List.replicate 8 (0 : Int)) (List.replicate 8 0)
        (total (fun x0 x1 => x0 + x1))
        { ret := List.replicate (List.replicate 8 (0 : Int)).length 0, calls := [],
          fault := none } t).calls = t :=
  ⟨by decide, rfl, by decide, rfl,
    partition_ascending (0 : Int) 3 (by decide) (List.replicate 8 0) (List.replicate 8 0)
      (fun x0 x1 => x0 + x1) rfl 1 (by decide)⟩

end Stripes

end MultiThreadBinary

namespace MultiThreadBinary

section Frame

variable {T : Type}

/-- C14: disjoint slot ownership as a frame property: for every `N ≥ 1`,
operands of equal length and worker id `k < N`, running the body of worker `k`
on a result buffer (of the length of the operands, in a process that has not
faulted) sets every slot `i` with `i % N = k` to `op a[i] b[i]` and leaves every
slot `j` with `j % N ≠ k`, and the length of the buffer, unchanged. -/
theorem worker_frame (zero : T) (N : Nat) (hN : 1 ≤ N) (op : T → T → T) (a b : List T)
    (hlen : a.length = b.length) (k : Nat) (hk : k < N) (m : Machine T)
    (hf : m.fault = none) (hr : m.ret.length = a.length) :
    ∃ t, (calulate zero N a b (total op)).targets[k]? = some t ∧
      (calulate.exec a b (total op) m t).fault = none ∧
      (calulate.exec a b (total op) m t).ret.length = m.ret.length ∧
      (∀ (j : Nat), j % N ≠ k → (calulate.exec a b (total op) m t).ret[j]? = m.ret[j]?) ∧
      (∀ (i : Nat) (x0 x1 : T), i % N = k → a[i]? = some x0 → b[i]? = some x1 →
        (calulate.exec a b (total op) m t).ret[i]? = some (op x0 x1)) := by
  have _ := hN
  refine ⟨(iota a.length).filter (fun j => j % N == k), ?_, ?_⟩
  · rw [calulate_of_length_eq zero N a b (total op) hlen]
    simp only [packTargets_getElem?, if_pos hk]
  · obtain ⟨hfault, _, hl, hget⟩ := exec_of_agree a b (total op) op a.length rfl hlen.symm
      ((iota a.length).filter (fun j => j % N == k))
      (fun i hi => ((mem_filter_iota N _ k i).mp hi).1) (fun _ _ _ _ _ _ => rfl) m hf hr
    refine ⟨hfault, hl.trans hr.symm, ?_, ?_⟩
    · intro j hj
      rw [hget j, if_neg]
      exact fun hmem => hj ((mem_filter_iota N _ k j).mp hmem).2
    · intro i x0 x1 hi h0 h1
      have hia : i < a.length := (List.getElem?_eq_some_iff.mp h0).1
      rw [hget i, if_pos ((mem_filter_iota N _ k i).mpr ⟨hia, hi⟩)]
      exact zipWith_getElem?_of_some op a b i x0 x1 h0 h1

/-- C14 at `N = 2`, worker 1, subtraction, on the buffer `[100, 200, 300]`:
the worker owns slot 1 only. -/
theorem worker_frame_witness :
    1 ≤ 2 ∧ [(5 : Int), 7, 9].length = [(1 : Int), 2, 3].length ∧ 1 < 2 ∧
    (calulate.exec [(5 : Int), 7, 9] [1, 2, 3] (total (fun x0 x1 => x0 - x1))
      { ret := [100, 200, 300], calls := [], fault := none } [1]).ret = [100, 5, 300] ∧
    ∃ t, (calulate (0 : Int) 2 [5, 7, 9] [1, 2, 3]
        (total (fun x0 x1 => x0 - x1))).targets[1]? = some t ∧
      (calulate.exec [(5 : Int), 7, 9] [1, 2, 3] (total (fun x0 x1 => x0 - x1))
        { ret := [100, 200, 300], calls := [], fault := none } t).fault = none ∧
      (calulate.exec [(5 : Int), 7, 9] [1, 2, 3] (total (fun x0 x1 => x0 - x1))
        { ret := [100, 200, 300], calls := [], fault := none } t).ret.length
        = [(100 : Int), 200, 300].length ∧
      (∀ (j : Nat), j % 2 ≠ 1 →
        (calulate.exec [(5 : Int), 7, 9] [1, 2, 3] (total (fun x0 x1 => x0 - x1))
          { ret := [100, 200, 300], calls := [], fault := none } t).ret[j]?
          = [(100 : Int), 200, 300][j]?) ∧
      (∀ (i : Nat) (x0 x1 : Int), i % 2 = 1 → [(5 : Int), 7, 9][i]? = some x0 →
        [(1 : Int), 2, 3][i]? = some x1 →
        (calulate.exec [(5 : Int), 7, 9] [1, 2, 3] (total (fun x0 x1 => x0 - x1))
          { ret := [100, 200, 300], calls := [], fault := none } t).ret[i]?
          = some (x0 - x1)) :=
  ⟨by decide, rfl, by decide, rfl,
    worker_frame (0 : Int) 2 (by decide) (fun x0 x1 => x0 - x1) [5, 7, 9] [1, 2, 3] rfl
      1 (by decide) { ret := [100, 200, 300], calls := [], fault := none } rfl rfl⟩

end Frame

section Sizes

/-- C15: for every `N ≥ 1`, every `n` and every worker id `k < N`, the partition
of worker `k` has `n / N` indices and one more if `k < n % N`; so the sizes do
not increase with the worker id, the workers with the smaller size `n / N` are
the ones with `k ≥ n % N`, and with `N > n` worker `k < n` gets the single index
`k` and worker `k ≥ n` gets nothing. -/
theorem partition_sizes (N n : Nat) (hN : 1 ≤ N) (k : Nat) (hk : k < N) :
    ∃ t, (packTargets N (iota N) (iota n))[k]? = some t ∧
      t.length = n / N + (if k < n % N then 1 else 0) ∧
      (∀ j tj, j ≤ k → (packTargets N (iota N) (iota n))[j]? = some tj →
        t.length ≤ tj.length) ∧
      (t.length = n / N ↔ n % N ≤ k) ∧
      (t.length = n / N + 1 ↔ k < n % N) ∧
      (n < N → k < n → t = [k]) ∧
      (n < N → n ≤ k → t = []) := by
  refine ⟨(iota n).filter (fun i => i % N == k), ?_, length_filter_iota N n k hN hk,
    ?_, ?_, ?_, ?_, ?_⟩
  · rw [packTargets_getElem?, if_pos hk]
  · intro j tj hjk htj
    have hj : j < N := by omega
    rw [packTargets_getElem?, if_pos hj] at htj
    cases htj
    rw [length_filter_iota N n k hN hk, length_filter_iota N n j hN hj]
    split <;> split <;> omega
  · rw [length_filter_iota N n k hN hk]
    split <;> omega
  · rw [length_filter_iota N n k hN hk]
    split <;> omega
  · intro hn hkn
    rw [filter_iota_eq_progression N n k hk, Nat.div_eq_of_lt hn, Nat.mod_eq_of_lt hn,
      if_pos hkn, show List.range (0 + 1) = [0] from rfl]
    simp
  · intro _ hkn
    exact filter_iota_of_le N n k hkn

/-- C15 at `N = 3`, `n = 7`, worker 1: two indices, since `7 / 3 = 2` and
`1 ≥ 7 % 3`. -/
theorem partition_sizes_witness :
    1 ≤ 3 ∧ 1 < 3 ∧ (packTargets 3 (iota 3) (iota 7))[1]? = some [1, 4] ∧
    ∃ t, (packTargets 3 (iota 3) (iota 7))[1]? = some t ∧
      t.length = 7 / 3 + (if 1 < 7 % 3 then 1 else 0) ∧
      (∀ j tj, j ≤ 1 → (packTargets 3 (iota 3) (iota 7))[j]? = some tj →
        t.length ≤ tj.length) ∧
      (t.length = 7 / 3 ↔ 7 % 3 ≤ 1) ∧
      (t.length = 7 / 3 + 1 ↔ 1 < 7 % 3) ∧
      (7 < 3 → 1 < 7 → t = [1]) ∧
      (7 < 3 → 7 ≤ 1 → t = []) :=
  ⟨by decide, by decide, rfl, partition_sizes 3 7 (by decide) 1 (by decide)⟩

end Sizes

end MultiThreadBinary

namespace MultiThreadBinary

section Bounds

variable {T : Type}

/-- A write at an index inside the operands and the buffer keeps the length of
the buffer and does not raise the out-of-range fault, whatever the callable
does. -/
theorem add_in_bounds (t0 t1 : List T) (binary : T → T → Option T) (m : Machine T)
    (i : Nat) (h0 : i < t0.length) (h1 : i < t1.length) (hr : i < m.ret.length)
    (hm : m.fault ≠ some Fault.outOfRange) :
    (calulate.add t0 t1 binary m i).fault ≠ some Fault.outOfRange ∧
    (calulate.add t0 t1 binary m i).ret.length = m.ret.length := by
  cases hf : m.fault with
  | some f =>
    rw [add_of_fault t0 t1 binary m i f hf]
    exact ⟨hm, rfl⟩
  | none =>
    cases hv : binary t0[i] t1[i] with
    | none =>
      rw [add_of_none t0 t1 binary m i hf h0 h1 hv]
      simp
    | some v =>
      rw [add_of_some t0 t1 binary m i v hf h0 h1 hr hv]
      simp

/-- A pass over indices below `n` keeps the length of the buffer and does not
raise the out-of-range fault. -/
theorem exec_in_bounds (t0 t1 : List T) (binary : T → T → Option T) (n : Nat)
    (h0 : t0.length = n) (h1 : t1.length = n) (l : List Nat) (hl : ∀ i ∈ l, i < n)
    (m : Machine T) (hr : m.ret.length = n) (hm : m.fault ≠ some Fault.outOfRange) :
    (calulate.exec t0 t1 binary m l).fault ≠ some Fault.outOfRange ∧
    (calulate.exec t0 t1 binary m l).ret.length = n := by
  induction l generalizing m with
  | nil => exact ⟨hm, hr⟩
  | cons j l ih =>
    have hj : j < n := hl j (List.mem_cons_self _ _)
    obtain ⟨hm', hr'⟩ := add_in_bounds t0 t1 binary m j (h0 ▸ hj) (h1 ▸ hj) (hr ▸ hj) hm
    exact ih (fun i hi => hl i (List.mem_cons_of_mem _ hi)) _ (hr'.trans hr) hm'

/-- C16: with `len(a) = len(b)` every index access of the workers is in bounds:
each index `i` of each partition is below `len(a) = len(b) = len(ret)`, so the
reads `a[i]`, `b[i]` find a value and the call never ends in the out-of-range
fault, whatever the callable does. -/
theorem accesses_in_bounds (zero : T) (N : Nat) (a b : List T)
    (binary : T → T → Option T) (hlen : a.length = b.length) :
    (∀ t ∈ (calulate zero N a b binary).targets, ∀ i ∈ t,
      i < a.length ∧ i < b.length ∧ i < (List.replicate a.length zero).length ∧
      (a[i]?).isSome = true ∧ (b[i]?).isSome = true) ∧
    (calulate zero N a b binary).result ≠ Except.error Fault.outOfRange := by
  rw [calulate_of_length_eq zero N a b binary hlen]
  constructor
  · intro t ht i hi
    have hia : i < a.length := packTargets_lt N a.length t ht i hi
    have hib : i < b.length := hlen ▸ hia
    refine ⟨hia, hib, by simpa using hia, ?_, ?_⟩
    · rw [List.getElem?_eq_getElem hia]
      rfl
    · rw [List.getElem?_eq_getElem hib]
      rfl
  · have hin : ∀ i ∈ (packTargets N (iota N) (iota a.length)).flatten, i < a.length := by
      intro i hi
      obtain ⟨t, ht, hit⟩ := List.mem_flatten.mp hi
      exact packTargets_lt N a.length t ht i hit
    have hne := (exec_in_bounds a b binary a.length rfl hlen.symm _ hin
      { ret := List.replicate a.length zero, calls := [], fault := none } (by simp)
      (by simp)).1
    simp only [Machine.result]
    split
    · rename_i f hf
      intro heq
      cases heq
      exact hne hf
    · simp

/-- C16 at `N = 2` for `int` division with a zero divisor: the call faults, but
not by an access out of range. -/
theorem accesses_in_bounds_witness :
    [(7 : Int), -8, 3].length = [(2 : Int), 0, 1].length ∧
    (∀ t ∈ (div (Arith.signed 32) 2 [7, -8, 3] [2, 0, 1]).targets, ∀ i ∈ t,
      i < [(7 : Int), -8, 3].length ∧ i < [(2 : Int), 0, 1].length ∧
      i < (List.replicate [(7 : Int), -8, 3].length (0 : Int)).length ∧
      ([(7 : Int), -8, 3][i]?).isSome = true ∧ ([(2 : Int), 0, 1][i]?).isSome = true) ∧
    (div (Arith.signed 32) 2 [7, -8, 3] [2, 0, 1]).result
      ≠ Except.error Fault.outOfRange :=
  ⟨rfl, accesses_in_bounds (0 : Int) 2 [7, -8, 3] [2, 0, 1]
    (fun x0 x1 => (Arith.signed 32).over x0 x1) rfl⟩

end Bounds

section WorkerCount

variable {T : Type}

/-- C17: the number of workers does not change the computed values: for all
`N ≥ 1` and `M ≥ 1`, every operator `op` and operands of equal length, the call
with `N` workers returns what the call with `M` workers returns, and what the
serial call with one worker returns. -/
theorem worker_count_irrelevant (zero : T) (N M : Nat) (hN : 1 ≤ N) (hM : 1 ≤ M)
    (op : T → T → T) (a b : List T) (hlen : a.length = b.length) :
    (calulate zero N a b (total op)).result = (calulate zero M a b (total op)).result ∧
    (calulate zero N a b (total op)).result = (calulate zero 1 a b (total op)).result ∧
    ∃ r, (calulate zero N a b (total op)).result = Except.ok r := by
  have h := fun (K : Nat) (hK : 1 ≤ K) =>
    calulate_result_of_agree zero K hK a b (total op) op hlen (fun _ _ _ _ _ => rfl)
  rw [h N hN, h M hM, h 1 (Nat.le_refl 1)]
  exact ⟨rfl, rfl, _, rfl⟩

/-- C17 at `N = 3` and `M = 5`, subtraction. -/
theorem worker_count_irrelevant_witness :
    1 ≤ 3 ∧ 1 ≤ 5 ∧ [(5 : Int), 7, 9, 11].length = [(1 : Int), 2, 3, 4].length ∧
    (calulate (0 : Int) 3 [5, 7, 9, 11] [1, 2, 3, 4] (total (fun x0 x1 => x0 - x1))).result
      = (calulate (0 : Int) 5 [5, 7, 9, 11] [1, 2, 3, 4]
        (total (fun x0 x1 => x0 - x1))).result ∧
    (calulate (0 : Int) 3 [5, 7, 9, 11] [1, 2, 3, 4] (total (fun x0 x1 => x0 - x1))).result
      = (calulate (0 : Int) 1 [5, 7, 9, 11] [1, 2, 3, 4]
        (total (fun x0 x1 => x0 - x1))).result ∧
    ∃ r, (calulate (0 : Int) 3 [5, 7, 9, 11] [1, 2, 3, 4]
      (total (fun x0 x1 => x0 - x1))).result = Except.ok r :=
  ⟨by decide, by decide, rfl,
    worker_count_irrelevant (0 : Int) 3 5 (by decide) (by decide) (fun x0 x1 => x0 - x1)
      [5, 7, 9, 11] [1, 2, 3, 4] rfl⟩

end WorkerCount

section NoWorkers

variable {T : Type}

/-- C18: `N ≥ 1` is not enforced: with `N = 0` and operands of equal length `n`
the call builds no partition, creates no worker, never invokes the operator,
and returns a vector of length `n` whose every slot holds the value-initialised
`T()` instead of `op a[i] b[i]`. -/
theorem zero_workers (zero : T) (a b : List T) (binary : T → T → Option T)
    (hlen : a.length = b.length) :
    (calulate zero 0 a b binary).targets = [] ∧
    (calulate zero 0 a b binary).threads = [] ∧
    (calulate zero 0 a b binary).joined = 0 ∧
    (calulate zero 0 a b binary).calls = [] ∧
    (calulate zero 0 a b binary).result = Except.ok (List.replicate a.length zero) ∧
    ∃ r, (calulate zero 0 a b binary).result = Except.ok r ∧ r.length = a.length ∧
      ∀ (i : Nat), i < a.length → r[i]? = some zero := by
  rw [calulate_of_length_eq zero 0 a b binary hlen]
  refine ⟨rfl, rfl, rfl, rfl, rfl, List.replicate a.length zero, rfl, by simp, ?_⟩
  intro i hi
  simp [List.getElem?_replicate, hi]

/-- C18 for `add` on `[1, 2]` and `[3, 4]`: the call with no worker returns
`[0, 0]`, the call with two workers `[4, 6]`. -/
theorem zero_workers_witness :
    [(1 : ℚ), 2].length = [(3 : ℚ), 4].length ∧
    (add (Arith.exact ℚ) 0 [1, 2] [3, 4]).result = Except.ok [0, 0] ∧
    (add (Arith.exact ℚ) 0 [1, 2] [3, 4]).calls = [] ∧
    (add (Arith.exact ℚ) 0 [1, 2] [3, 4]).threads = [] ∧
    (add (Arith.exact ℚ) 2 [1, 2] [3, 4]).result = Except.ok [4, 6] :=
  ⟨rfl,
    (zero_workers (0 : ℚ) [1, 2] [3, 4] (fun x0 x1 => (Arith.exact ℚ).plus x0 x1) rfl).2.2.2.2.1,
    (zero_workers (0 : ℚ) [1, 2] [3, 4] (fun x0 x1 => (Arith.exact ℚ).plus x0 x1) rfl).2.2.2.1,
    (zero_workers (0 : ℚ) [1, 2] [3, 4] (fun x0 x1 => (Arith.exact ℚ).plus x0 x1) rfl).2.1,
    (calulate_result_of_agree (0 : ℚ) 2 (by decide) [1, 2] [3, 4]
      (fun x0 x1 => (Arith.exact ℚ).plus x0 x1) (fun x0 x1 => x0 + x1) rfl
      (fun _ _ _ _ _ => rfl)).trans (by norm_num)⟩

end NoWorkers

end MultiThreadBinary
